import Mathlib

/-!
Verification of the growing-segment core of `SegmentGrowingImpl.cpp`
(milvus `internal/core/src/segcore`), as a shallow embedding.

The embedding covers:
* the deletion-reconciliation engine `get_deleted_bitmap` together with the
  `TmpBitmap` LRU cache entries of the Deleted Record;
* the `Insert` write path (schema check, `(timestamp, uid)` sort, row-major to
  column-major transposition, Uid-Index publication order);
* `Close` and the `PreInsert`/`PreDelete` reservation counters.

Machine integers of the source (`int64_t` offsets/barriers, `uint64_t`
timestamps) are modelled as `Nat` where the source keeps them non-negative and
as `Int` where the source uses the `-1` sentinel (`the_offset`).  `Assert`
failures and thrown exceptions are modelled as `Option`/`Except` failures.
-/

namespace Segcore

/-! ## Definitions: the shallow embedding of `SegmentGrowingImpl.cpp` -/

/-- A cache entry of the Deleted Record.
Modelled from the spec: `DeletedRecord::TmpBitmap` itself is not part of the
given source file; per the spec it is an immutable snapshot holding
`del_barrier` (number of delete-log entries applied) and a bitmap over
`[0, insert_barrier)`.  The bitmap is a `List Bool`; its length is the
capacity returned by `bitmap_ptr->count()` ("spans all current insert rows"). -/
structure TmpBitmap where
  del_barrier : Nat
  bitmap : List Bool
deriving DecidableEq, Repr

/-- Modelled from the spec: `TmpBitmap::clone(insert_barrier)` produces a new
bitmap sized to `insert_barrier`, preserving previously-set bits (bits beyond
the new capacity are dropped, new positions start cleared). -/
def cloneBitmap (b : List Bool) (n : Nat) : List Bool :=
  (List.range n).map (fun k => b.getD k false)

/-- The segment state visible to `get_deleted_bitmap`:
`deleted_record_.uids_` (the delete log, one uid per delete index),
`record_.timestamps_` (insert-record timestamps, indexed by offset),
`uid2offset_` (the Uid Index, a multimap from uid to offsets), and the
most-recent LRU cache entry.
Modelled from the spec: `get_lru_entry` returns the most recent cache entry
and `insert_lru_entry` makes its argument the new most recent entry; the
cache is therefore represented by that single entry. -/
structure DeleteView where
  delUids : Nat → Int
  timestamps : Nat → Nat
  uid2offset : Int → List Nat
  lru : TmpBitmap

/-- The inner candidate loop of the backward branch of
`get_deleted_bitmap` (lines 67-75): `the_offset` starts at `-1`; every
candidate offset with `timestamps_[offset] < query_timestamp` is subject to
`Assert(offset < insert_barrier)` (failure = `none`) and then folded with
`max`. -/
def resolveLoopB (ts : Nat → Nat) (qt ib : Nat) : List Nat → Int → Option Int
  | [], acc => some acc
  | off :: rest, acc =>
    if ts off < qt then
      if off < ib then resolveLoopB ts qt ib rest (max acc (off : Int))
      else none
    else resolveLoopB ts qt ib rest acc

/-- The inner candidate loop of the forward branch of
`get_deleted_bitmap` (lines 90-101): candidates with
`offset >= insert_barrier` are skipped, then those with
`timestamps_[offset] < query_timestamp` are folded with `max` (the `Assert`
there is vacuous after the skip). -/
def resolveLoopF (ts : Nat → Nat) (qt ib : Nat) : List Nat → Int → Int
  | [], acc => acc
  | off :: rest, acc =>
    if ib ≤ off then resolveLoopF ts qt ib rest acc
    else if ts off < qt then resolveLoopF ts qt ib rest (max acc (off : Int))
    else resolveLoopF ts qt ib rest acc

/-- Resolution of one delete-log entry under the forward rule: look up the
entry's uid in the Uid Index and run the forward candidate loop from `-1`. -/
def resolveEntryF (s : DeleteView) (qt ib : Nat) (delIndex : Nat) : Int :=
  resolveLoopF s.timestamps qt ib (s.uid2offset (s.delUids delIndex)) (-1)

/-- The backward loop of `get_deleted_bitmap` (lines 62-82) over the given
delete indices: resolve each entry (propagating `Assert` failure), skip it if
the resolution is `-1`, otherwise clear that bit. -/
def applyBackward (s : DeleteView) (qt ib : Nat) : List Nat → List Bool → Option (List Bool)
  | [], bm => some bm
  | di :: rest, bm =>
    (resolveLoopB s.timestamps qt ib (s.uid2offset (s.delUids di)) (-1)).bind fun theOff =>
      if theOff = -1 then applyBackward s qt ib rest bm
      else applyBackward s qt ib rest (bm.set theOff.toNat false)

/-- The forward loop of `get_deleted_bitmap` (lines 85-110) over the given
delete indices: resolve each entry, skip it if the resolution is `-1`,
otherwise set that bit. -/
def applyForward (s : DeleteView) (qt ib : Nat) : List Nat → List Bool → List Bool
  | [], bm => bm
  | di :: rest, bm =>
    if resolveLoopF s.timestamps qt ib (s.uid2offset (s.delUids di)) (-1) = -1 then
      applyForward s qt ib rest bm
    else
      applyForward s qt ib rest
        (bm.set (resolveLoopF s.timestamps qt ib (s.uid2offset (s.delUids di)) (-1)).toNat true)

/-- The fast-path condition of `get_deleted_bitmap` (lines 51-55):
`(!force || old->bitmap_ptr->count() == insert_barrier)` and
`old->del_barrier == del_barrier`. -/
def fastHit (old : TmpBitmap) (del_barrier ib : Nat) (force : Bool) : Bool :=
  (!force || old.bitmap.length == ib) && (old.del_barrier == del_barrier)

/-- `SegmentGrowingImpl::get_deleted_bitmap` (lines 44-114).  Returns the
produced `TmpBitmap` together with the most-recent LRU cache entry after the
call (`insert_lru_entry` is executed only on the forward branch); `none`
models an `Assert` failure inside the backward branch. -/
def get_deleted_bitmap (s : DeleteView) (del_barrier qt ib : Nat) (force : Bool) :
    Option (TmpBitmap × TmpBitmap) :=
  let old := s.lru
  if fastHit old del_barrier ib force then
    some (old, old)
  else
    let bitmap0 := cloneBitmap old.bitmap ib
    if del_barrier < old.del_barrier then
      match applyBackward s qt ib (List.range' del_barrier (old.del_barrier - del_barrier)) bitmap0 with
      | none => none
      | some bm => some (⟨del_barrier, bm⟩, old)
    else
      let bm := applyForward s qt ib (List.range' old.del_barrier (del_barrier - old.del_barrier)) bitmap0
      some (⟨del_barrier, bm⟩, ⟨del_barrier, bm⟩)

/-- Modelled from the spec: the cache entry the Deleted Record starts with
("created empty when the segment opens"): no delete applied, empty bitmap. -/
def initialEntry : TmpBitmap := ⟨0, []⟩

/-- The spec's resolution rule for a delete-log entry (forward form, the one
stated in the snapshot-correctness property): offset `o` is the largest
offset among the Uid Index entries for `uid` having `timestamps[o] < t` and
`o < i`. -/
def resolvesTo (s : DeleteView) (qt ib : Nat) (uid : Int) (o : Nat) : Prop :=
  o ∈ s.uid2offset uid ∧ s.timestamps o < qt ∧ o < ib ∧
    ∀ o' ∈ s.uid2offset uid, s.timestamps o' < qt → o' < ib → o' ≤ o

/-- The backward-branch resolution rule as the source implements it:
candidates are filtered by the timestamp constraint only (every considered
candidate is additionally asserted to lie below `insert_barrier`). -/
def resolvesToB (s : DeleteView) (qt : Nat) (uid : Int) (o : Nat) : Prop :=
  o ∈ s.uid2offset uid ∧ s.timestamps o < qt ∧
    ∀ o' ∈ s.uid2offset uid, s.timestamps o' < qt → o' ≤ o

instance (s : DeleteView) (qt ib : Nat) (uid : Int) (o : Nat) :
    Decidable (resolvesTo s qt ib uid o) := by
  unfold resolvesTo; exact inferInstance

instance (s : DeleteView) (qt : Nat) (uid : Int) (o : Nat) :
    Decidable (resolvesToB s qt uid o) := by
  unfold resolvesToB; exact inferInstance

/-- A concrete segment state for the C10 witness: the cached bitmap covers
only 2 rows while `insert_barrier` is 3. -/
def c10View : DeleteView :=
  { delUids := fun _ => 7
    timestamps := fun _ => 5
    uid2offset := fun _ => [0]
    lru := ⟨2, [true, false]⟩ }

/-- A concrete segment state for the C3 witness. -/
def c3View : DeleteView :=
  { delUids := fun _ => 1
    timestamps := fun _ => 10
    uid2offset := fun u => if u = 1 then [0] else []
    lru := ⟨0, []⟩ }

/-- A concrete segment state for the C5 witness: a backward call leaves the
cache entry untouched. -/
def c5View : DeleteView :=
  { delUids := fun _ => 5
    timestamps := fun _ => 10
    uid2offset := fun u => if u = 5 then [0] else []
    lru := ⟨1, [true]⟩ }

/-- A concrete segment state for the C1 witness: uid 4 has two versions at
offsets 0 (t=10) and 1 (t=30); a single delete of uid 4 queried at t=20 must
mark offset 0. -/
def c1View : DeleteView :=
  { delUids := fun _ => 4
    timestamps := fun o => if o = 0 then 10 else 30
    uid2offset := fun u => if u = 4 then [0, 1] else []
    lru := initialEntry }

/-- A concrete segment state refuting C4 as stated: uid 5 has candidate
offsets 0 and 3, both with timestamp 10; the cached entry already reflects
one delete.  A backward call with `insert_barrier = 2` and
`query_timestamp = 20` meets candidate offset `3 >= 2` whose timestamp
qualifies, and the source's `Assert(offset < insert_barrier)` fires. -/
def c4View : DeleteView :=
  { delUids := fun _ => 5
    timestamps := fun _ => 10
    uid2offset := fun u => if u = 5 then [0, 3] else []
    lru := ⟨1, [true, false]⟩ }

/-- A concrete segment state for the C4-amended witness. -/
def c4WView : DeleteView :=
  { delUids := fun _ => 5
    timestamps := fun _ => 10
    uid2offset := fun u => if u = 5 then [0] else []
    lru := ⟨1, [true]⟩ }

/-- A concrete segment state refuting C2: the delete log holds two deletes of
the same uid 5, both resolving to offset 0.  The cached bitmap at barrier 1
(exactly what a fresh computation at barrier 1 yields) already has bit 0 set;
going forward to barrier 2 sets bit 0 again (idempotently), and going back to
barrier 1 clears it — losing the bit the first delete had set. -/
def c2View : DeleteView :=
  { delUids := fun _ => 5
    timestamps := fun _ => 10
    uid2offset := fun u => if u = 5 then [0] else []
    lru := ⟨1, [true]⟩ }

/-- A concrete segment state for the C2-amended witness: two distinct deletes
(uids 5 then 6) resolving to distinct offsets 0 and 1; the cached bitmap at
barrier 1 has only bit 0 set. -/
def c2WView : DeleteView :=
  { delUids := fun j => if j = 0 then 5 else 6
    timestamps := fun _ => 10
    uid2offset := fun u => if u = 5 then [0] else if u = 6 then [1] else []
    lru := ⟨1, [true, false]⟩ }

/-- The schema descriptor as `Insert` consumes it: per-field byte sizes
(`get_sizeof_infos`), field count (`size()`), and total row byte size
(`get_total_sizeof`). -/
structure Schema where
  sizeof_infos : List Nat
deriving DecidableEq, Repr

def Schema.get_total_sizeof (sc : Schema) : Nat := sc.sizeof_infos.sum

def Schema.numFields (sc : Schema) : Nat := sc.sizeof_infos.length

/-- `offset_infos[fid]`: the byte offset of field `fid` inside a row, the
partial sum of the sizes of the preceding fields (lines 143-144). -/
def Schema.offsetInfos (sc : Schema) (fid : Nat) : Nat := (sc.sizeof_infos.take fid).sum

/-- `RowBasedRawData`: a row-major byte buffer with its per-row byte length
and row count. -/
structure RowBasedRawData where
  raw_data : List Nat
  sizeof_per_row : Nat
  count : Nat
deriving DecidableEq, Repr

/-- `memcpy(dst, raw + start, len)` on the row-major buffer. -/
def slice (raw : List Nat) (start len : Nat) : List Nat := (raw.drop start).take len

/-- Lexicographic order on the `(timestamp, uid, index)` triples built at
lines 136-138; `std::sort` orders tuples lexicographically. -/
def tripleLe (a b : Nat × Int × Nat) : Prop :=
  a.1 < b.1 ∨ (a.1 = b.1 ∧ (a.2.1 < b.2.1 ∨ (a.2.1 = b.2.1 ∧ a.2.2 ≤ b.2.2)))

instance : DecidableRel tripleLe := fun a b => by
  unfold tripleLe; exact inferInstance

instance : IsTotal (Nat × Int × Nat) tripleLe :=
  ⟨by intro a b; unfold tripleLe; omega⟩

instance : IsTrans (Nat × Int × Nat) tripleLe :=
  ⟨by intro a b c; unfold tripleLe; omega⟩

/-- The sorted `ordering` vector of `Insert` (lines 133-139): the triples
`(timestamps_raw[i], uids_raw[i], i)` for `i < size`, sorted
lexicographically.  All triples are distinct (distinct third components), so
any correct sort produces this list. -/
def insertOrdering (size : Nat) (uids_raw : Nat → Int) (timestamps_raw : Nat → Nat) :
    List (Nat × Int × Nat) :=
  List.insertionSort tripleLe
    ((List.range size).map (fun i => (timestamps_raw i, uids_raw i, i)))

/-- The projection of the sorted batch the claim's order condition is about. -/
def pairLe (a b : Nat × Int) : Prop := a.1 < b.1 ∨ (a.1 = b.1 ∧ a.2 ≤ b.2)

/-- The state an `Insert` call mutates: the Insert Record's timestamp, uid
and per-field columns (a column position is `none` until written), the Uid
Index (a multimap, modelled as the list of its `(uid, offset)` entries in
insertion order), and the Ack Responder's segment list. -/
structure InsertState where
  timestamps_ : Nat → Option Nat
  uids_ : Nat → Option Int
  entities_ : Nat → Nat → Option (List Nat)
  uid2offset_ : List (Int × Nat)
  ack : List (Nat × Nat)

/-- `ConcurrentVector::set_data(offset, ptr, count)`: writes the `xs` values
at positions `[b, b + xs.length)`. -/
def setData {α : Type} (col : Nat → Option α) (b : Nat) (xs : List α) : Nat → Option α :=
  fun o => if b ≤ o ∧ o < b + xs.length then xs[o - b]? else col o

/-- The observable effects of one `Insert` call in source order: column
writes (lines 169-174), Uid Index insertions (lines 176-180), Ack Responder
advance (line 182). -/
inductive WriteEvent
  | setTimestampData (b n : Nat)
  | setUidData (b n : Nat)
  | setFieldData (fid b n : Nat)
  | uidIndexInsert (uid : Int) (off : Nat)
  | addSegment (b e : Nat)
deriving DecidableEq, Repr

def WriteEvent.isDataWrite : WriteEvent → Bool
  | .setTimestampData _ _ => true
  | .setUidData _ _ => true
  | .setFieldData _ _ _ => true
  | _ => false

def WriteEvent.isUidIndexInsert : WriteEvent → Bool
  | .uidIndexInsert _ _ => true
  | _ => false

/-- Failures of `Insert`: the `Assert(entities_raw.count == size)` at line
122 and the schema-mismatch `std::runtime_error` thrown at lines 124-127. -/
inductive InsertError
  | assertViolation
  | schemaMismatch (entity_len schema_len : Nat)
deriving DecidableEq, Repr

/-- `SegmentGrowingImpl::Insert` (lines 116-185): check the argument count
and the schema, sort the batch by `(timestamp, uid)`, transpose the
row-major bytes into per-field columns, write timestamps, uids and columns
into the reserved range, then (strictly last) publish the `(uid, offset)`
pairs into the Uid Index, and finally acknowledge.  The returned trace lists
the mutation events in the order the source performs them; an error is
returned before any mutation, as the source throws before step 2. -/
def Insert (schema_ : Schema) (st : InsertState) (reserved_begin size : Nat)
    (uids_raw : Nat → Int) (timestamps_raw : Nat → Nat) (entities_raw : RowBasedRawData) :
    Except InsertError (InsertState × List WriteEvent) :=
  if entities_raw.count ≠ size then .error .assertViolation
  else if entities_raw.sizeof_per_row ≠ schema_.get_total_sizeof then
    .error (.schemaMismatch entities_raw.sizeof_per_row schema_.get_total_sizeof)
  else
    let ordering := insertOrdering size uids_raw timestamps_raw
    let timestamps := ordering.map (fun x => x.1)
    let uids := ordering.map (fun x => x.2.1)
    let entities := (List.range schema_.numFields).map (fun fid =>
      ordering.map (fun x =>
        slice entities_raw.raw_data
          (x.2.2 * entities_raw.sizeof_per_row + schema_.offsetInfos fid)
          (schema_.sizeof_infos.getD fid 0)))
    let st1 : InsertState :=
      { timestamps_ := setData st.timestamps_ reserved_begin timestamps
        uids_ := setData st.uids_ reserved_begin uids
        entities_ := fun fid =>
          if fid < schema_.numFields then
            setData (st.entities_ fid) reserved_begin (entities.getD fid [])
          else st.entities_ fid
        uid2offset_ := st.uid2offset_ ++
          (List.range size).map (fun i => (uids.getD i 0, reserved_begin + i))
        ack := st.ack ++ [(reserved_begin, reserved_begin + size)] }
    .ok (st1,
      [WriteEvent.setTimestampData reserved_begin size,
       WriteEvent.setUidData reserved_begin size] ++
      (List.range schema_.numFields).map (fun fid =>
        WriteEvent.setFieldData fid reserved_begin size) ++
      (List.range size).map (fun i =>
        WriteEvent.uidIndexInsert (uids.getD i 0) (reserved_begin + i)) ++
      [WriteEvent.addSegment reserved_begin (reserved_begin + size)])

/-- Concrete inputs for the C6 witness: two rows arriving out of timestamp
order, schema with a 1-byte and a 2-byte field. -/
def c6Schema : Schema := ⟨[1, 2]⟩

def c6State : InsertState :=
  { timestamps_ := fun _ => none
    uids_ := fun _ => none
    entities_ := fun _ _ => none
    uid2offset_ := []
    ack := [] }

def c6Uids : Nat → Int := fun i => if i = 0 then 2 else 1

def c6Ts : Nat → Nat := fun i => if i = 0 then 20 else 10

def c6Rows : RowBasedRawData := ⟨[1, 2, 3, 4, 5, 6], 3, 2⟩

/-- Concrete inputs for the C7 witness: per-row byte length 2 against a
schema of total size 3. -/
def c7Rows : RowBasedRawData := ⟨[9, 9], 2, 1⟩

inductive SegmentSt
  | Open
  | Closed
deriving DecidableEq, Repr

/-- The state `Close` reads and writes: the two records' reservation
counters (`reserved`), their acknowledgment frontiers
(`ack_responder_.GetAck()`, modelled as the frontier value), and `state_`. -/
structure SegmentMeta where
  insert_reserved : Nat
  insert_ack : Nat
  delete_reserved : Nat
  delete_ack : Nat
  state_ : SegmentSt
deriving DecidableEq, Repr

/-- `SegmentGrowingImpl::Close` (lines 219-229): `PanicInfo` — a fatal,
unrecoverable failure, modelled as `none` — when either record's
reservation counter differs from its acknowledgment frontier; otherwise the
segment state becomes `Closed` and the call returns OK. -/
def Close (s : SegmentMeta) : Option SegmentMeta :=
  if s.insert_reserved ≠ s.insert_ack then none
  else if s.delete_reserved ≠ s.delete_ack then none
  else some { s with state_ := SegmentSt.Closed }

/-- `SegmentGrowingImpl::PreInsert`/`PreDelete` (lines 32-42):
`reserved.fetch_add(size)` returns the previous counter value (the start of
the reserved range) and advances the counter by `size`.  The same code acts
on `record_.reserved` and on `deleted_record_.reserved`, so one model covers
both records. -/
def PreInsert (reserved size : Nat) : Nat × Nat := (reserved, reserved + size)

/-- The `(begin, size)` ranges a finite sequence of reservation calls of the
given sizes obtains from one record whose counter starts at `r`. -/
def reserveRanges : Nat → List Nat → List (Nat × Nat)
  | _, [] => []
  | r, n :: ns => ((PreInsert r n).1, n) :: reserveRanges (PreInsert r n).2 ns

/-- The record's reservation counter after the sequence. -/
def runReservations : Nat → List Nat → Nat
  | r, [] => r
  | r, n :: ns => runReservations (PreInsert r n).2 ns

def rangeAt (rs : List (Nat × Nat)) (k : Nat) : Nat × Nat := rs.getD k (0, 0)

def inRange (p : Nat × Nat) (x : Nat) : Prop := p.1 ≤ x ∧ x < p.1 + p.2

/-! ## Theorems -/

theorem resolveLoopF_le (ts : Nat → Nat) (qt ib : Nat) :
    ∀ (offs : List Nat) (acc : Int), acc ≤ resolveLoopF ts qt ib offs acc := by
  intro offs
  induction offs with
  | nil => intro acc; simp [resolveLoopF]
  | cons off rest ih =>
    intro acc
    unfold resolveLoopF
    split
    · exact ih acc
    · split
      · exact le_trans (le_max_left acc off) (ih _)
      · exact ih acc

theorem resolveLoopF_ub (ts : Nat → Nat) (qt ib : Nat) :
    ∀ (offs : List Nat) (acc : Int) (o : Nat), o ∈ offs → o < ib → ts o < qt →
      (o : Int) ≤ resolveLoopF ts qt ib offs acc := by
  intro offs
  induction offs with
  | nil => intro acc o h; simp at h
  | cons off rest ih =>
    intro acc o hmem hib hts
    unfold resolveLoopF
    rcases List.mem_cons.mp hmem with heq | hrest
    · subst heq
      rw [if_neg (by omega)]
      rw [if_pos hts]
      exact le_trans (le_max_right acc o) (resolveLoopF_le ts qt ib rest _)
    · split
      · exact ih acc o hrest hib hts
      · split
        · exact ih _ o hrest hib hts
        · exact ih acc o hrest hib hts

theorem resolveLoopF_cases (ts : Nat → Nat) (qt ib : Nat) :
    ∀ (offs : List Nat) (acc : Int),
      resolveLoopF ts qt ib offs acc = acc ∨
        ∃ o ∈ offs, o < ib ∧ ts o < qt ∧ resolveLoopF ts qt ib offs acc = (o : Int) := by
  intro offs
  induction offs with
  | nil => intro acc; left; rfl
  | cons off rest ih =>
    intro acc
    unfold resolveLoopF
    by_cases hib : ib ≤ off
    · rw [if_pos hib]
      rcases ih acc with h | ⟨o, hm, h1, h2, h3⟩
      · left; exact h
      · right; exact ⟨o, List.mem_cons_of_mem _ hm, h1, h2, h3⟩
    · rw [if_neg hib]
      by_cases hts : ts off < qt
      · rw [if_pos hts]
        rcases ih (max acc off) with h | ⟨o, hm, h1, h2, h3⟩
        · rcases max_choice acc (off : Int) with hmax | hmax
          · left; rw [h, hmax]
          · right
            exact ⟨off, List.mem_cons_self off rest, by omega, hts, by rw [h, hmax]⟩
        · right; exact ⟨o, List.mem_cons_of_mem _ hm, h1, h2, h3⟩
      · rw [if_neg hts]
        rcases ih acc with h | ⟨o, hm, h1, h2, h3⟩
        · left; exact h
        · right; exact ⟨o, List.mem_cons_of_mem _ hm, h1, h2, h3⟩

/-- The forward resolution of a delete-log entry equals offset `o` exactly
when `o` satisfies the spec's largest-qualifying-offset rule. -/
theorem resolveEntryF_eq_iff (s : DeleteView) (qt ib : Nat) (di o : Nat) :
    resolveEntryF s qt ib di = (o : Int) ↔ resolvesTo s qt ib (s.delUids di) o := by
  unfold resolveEntryF resolvesTo
  constructor
  · intro h
    rcases resolveLoopF_cases s.timestamps qt ib (s.uid2offset (s.delUids di)) (-1) with h0 | ⟨o', hm, h1, h2, h3⟩
    · rw [h0] at h; omega
    · rw [h3] at h
      have : o' = o := by omega
      subst this
      refine ⟨hm, h2, h1, ?_⟩
      intro o'' hm'' hts'' hib''
      have := resolveLoopF_ub s.timestamps qt ib (s.uid2offset (s.delUids di)) (-1) o'' hm'' hib'' hts''
      omega
  · rintro ⟨hm, hts, hib, hmax⟩
    have hub := resolveLoopF_ub s.timestamps qt ib (s.uid2offset (s.delUids di)) (-1) o hm hib hts
    rcases resolveLoopF_cases s.timestamps qt ib (s.uid2offset (s.delUids di)) (-1) with h0 | ⟨o', hm', h1, h2, h3⟩
    · omega
    · rw [h3] at hub ⊢
      have := hmax o' hm' h2 h1
      omega

/-- When every timestamp-qualifying candidate is below `insert_barrier`, the
backward loop's `Assert` never fires and it computes the same maximum as the
forward loop. -/
theorem resolveLoopB_eq_F (ts : Nat → Nat) (qt ib : Nat) :
    ∀ (offs : List Nat), (∀ o ∈ offs, ts o < qt → o < ib) →
      ∀ acc, resolveLoopB ts qt ib offs acc = some (resolveLoopF ts qt ib offs acc) := by
  intro offs
  induction offs with
  | nil => intro _ acc; rfl
  | cons off rest ih =>
    intro h acc
    have hrest : ∀ o ∈ rest, ts o < qt → o < ib := by
      intro o hm; exact h o (List.mem_cons_of_mem _ hm)
    unfold resolveLoopB resolveLoopF
    by_cases hts : ts off < qt
    · have hib : off < ib := h off (List.mem_cons_self off rest) hts
      rw [if_pos hts, if_pos hib, if_neg (by omega), if_pos hts]
      exact ih hrest _
    · rw [if_neg hts]
      by_cases hib : ib ≤ off
      · rw [if_pos hib]; exact ih hrest acc
      · rw [if_neg hib, if_neg hts]; exact ih hrest acc

theorem getD_out_of_range (l : List Bool) (o : Nat) (h : l.length ≤ o) :
    l.getD o false = false := by
  rw [List.getD_eq_getElem?_getD, List.getElem?_eq_none h]
  rfl

theorem getD_set_bool (l : List Bool) (n o : Nat) (v : Bool) :
    (l.set n v).getD o false =
      if o = n ∧ n < l.length then v else l.getD o false := by
  induction l generalizing n o with
  | nil => simp
  | cons a l ih =>
    cases n with
    | zero =>
      cases o with
      | zero => simp
      | succ o => simp [List.getD_cons_succ]
    | succ n =>
      cases o with
      | zero => simp [List.getD_cons_zero]
      | succ o =>
        simp only [List.set_cons_succ, List.getD_cons_succ, List.length_cons]
        rw [ih n o]
        by_cases h : o = n ∧ n < l.length
        · rw [if_pos h, if_pos ⟨by omega, by omega⟩]
        · rw [if_neg h, if_neg (by omega)]

theorem getD_set_false_iff (l : List Bool) (n o : Nat) :
    ((l.set n false).getD o false = true) ↔ (l.getD o false = true ∧ o ≠ n) := by
  rw [getD_set_bool]
  by_cases h : o = n ∧ n < l.length
  · simp [h]
  · by_cases ho : o = n
    · subst ho
      have hle : l.length ≤ o := by omega
      rw [if_neg h, getD_out_of_range _ _ hle]
      simp
    · simp [ho, h]

theorem getD_set_true_iff (l : List Bool) (n o : Nat) (hn : n < l.length) :
    ((l.set n true).getD o false = true) ↔ (o = n ∨ l.getD o false = true) := by
  rw [getD_set_bool]
  by_cases ho : o = n
  · simp [ho, hn]
  · simp [ho, hn]

theorem cloneBitmap_length (b : List Bool) (n : Nat) : (cloneBitmap b n).length = n := by
  simp [cloneBitmap]

theorem cloneBitmap_getD (b : List Bool) (n k : Nat) :
    (cloneBitmap b n).getD k false = if k < n then b.getD k false else false := by
  by_cases h : k < n
  · rw [if_pos h]
    unfold cloneBitmap
    rw [List.getD_eq_getElem?_getD, List.getElem?_map, List.getElem?_range h]
    rfl
  · rw [if_neg h]
    exact getD_out_of_range _ _ (by rw [cloneBitmap_length]; omega)

theorem cloneBitmap_self (b : List Bool) : cloneBitmap b b.length = b := by
  apply List.ext_getElem
  · exact cloneBitmap_length b b.length
  · intro k h1 h2
    have : (cloneBitmap b b.length)[k]? = b[k]? := by
      rw [List.getElem?_eq_getElem h1, List.getElem?_eq_getElem h2]
      have h3 := cloneBitmap_getD b b.length k
      rw [if_pos h2] at h3
      rw [List.getD_eq_getElem?_getD, List.getD_eq_getElem?_getD,
        List.getElem?_eq_getElem h1, List.getElem?_eq_getElem h2] at h3
      simpa using h3
    rw [List.getElem?_eq_getElem h1, List.getElem?_eq_getElem h2] at this
    simpa using this

theorem applyForward_length (s : DeleteView) (qt ib : Nat) :
    ∀ (L : List Nat) (bm : List Bool), (applyForward s qt ib L bm).length = bm.length := by
  intro L
  induction L with
  | nil => intro bm; rfl
  | cons di rest ih =>
    intro bm
    unfold applyForward
    split
    · exact ih bm
    · rw [ih]; exact List.length_set ..

theorem applyForward_len_eq (s : DeleteView) (qt ib : Nat) (L : List Nat) (bm : List Bool)
    (h : bm.length = ib) : (applyForward s qt ib L bm).length = ib := by
  rw [applyForward_length]; exact h

/-- Pointwise effect of the forward loop: a bit ends set exactly when it was
already set or some processed entry resolves to it. -/
theorem applyForward_getD (s : DeleteView) (qt ib : Nat) :
    ∀ (L : List Nat) (bm : List Bool), bm.length = ib →
      ∀ o : Nat, (applyForward s qt ib L bm).getD o false = true ↔
        (bm.getD o false = true ∨ ∃ di ∈ L, resolveEntryF s qt ib di = (o : Int)) := by
  intro L
  induction L with
  | nil => intro bm _ o; simp [applyForward]
  | cons di rest ih =>
    intro bm hlen o
    unfold applyForward
    by_cases h : resolveLoopF s.timestamps qt ib (s.uid2offset (s.delUids di)) (-1) = -1
    · rw [if_pos h]
      rw [ih bm hlen o]
      constructor
      · rintro (hbit | ⟨di', hm, hr⟩)
        · left; exact hbit
        · right; exact ⟨di', List.mem_cons_of_mem _ hm, hr⟩
      · rintro (hbit | ⟨di', hm, hr⟩)
        · left; exact hbit
        · rcases List.mem_cons.mp hm with rfl | hm'
          · exfalso; rw [resolveEntryF] at hr; rw [h] at hr; omega
          · right; exact ⟨di', hm', hr⟩
    · rw [if_neg h]
      rcases resolveLoopF_cases s.timestamps qt ib (s.uid2offset (s.delUids di)) (-1) with h0 | ⟨od, hm, h1, h2, h3⟩
      · exact absurd h0 h
      · rw [h3]
        rw [ih _ (by rw [List.length_set]; exact hlen) o]
        rw [show ((od : Int)).toNat = od from Int.toNat_natCast od]
        rw [getD_set_true_iff bm od o (by omega)]
        have hdi : resolveEntryF s qt ib di = (o : Int) ↔ o = od := by
          unfold resolveEntryF
          rw [h3]
          constructor
          · intro hc; omega
          · intro hc; rw [hc]
        rw [List.exists_mem_cons_iff]
        rw [hdi]
        tauto

/-- The backward loop succeeds when every timestamp-qualifying candidate of
the processed entries lies below `insert_barrier`, and then a bit ends set
exactly when it was set before and no processed entry resolves to it. -/
theorem applyBackward_some (s : DeleteView) (qt ib : Nat) :
    ∀ (L : List Nat) (bm : List Bool),
      (∀ di ∈ L, ∀ o ∈ s.uid2offset (s.delUids di), s.timestamps o < qt → o < ib) →
      ∃ bm', applyBackward s qt ib L bm = some bm' ∧ bm'.length = bm.length ∧
        ∀ o : Nat, bm'.getD o false = true ↔
          (bm.getD o false = true ∧ ¬∃ di ∈ L, resolveEntryF s qt ib di = (o : Int)) := by
  intro L
  induction L with
  | nil => intro bm _; exact ⟨bm, rfl, rfl, by simp [applyBackward]⟩
  | cons di rest ih =>
    intro bm h
    have hdi : ∀ o ∈ s.uid2offset (s.delUids di), s.timestamps o < qt → o < ib :=
      h di (List.mem_cons_self di rest)
    have hrest : ∀ di' ∈ rest, ∀ o ∈ s.uid2offset (s.delUids di'), s.timestamps o < qt → o < ib := by
      intro di' hm
      exact h di' (List.mem_cons_of_mem _ hm)
    have hstep : applyBackward s qt ib (di :: rest) bm =
        if resolveLoopF s.timestamps qt ib (s.uid2offset (s.delUids di)) (-1) = -1 then
          applyBackward s qt ib rest bm
        else
          applyBackward s qt ib rest
            (bm.set (resolveLoopF s.timestamps qt ib (s.uid2offset (s.delUids di)) (-1)).toNat false) := by
      conv_lhs => unfold applyBackward
      rw [resolveLoopB_eq_F s.timestamps qt ib _ hdi, Option.some_bind]
    rw [hstep]
    by_cases hneg : resolveLoopF s.timestamps qt ib (s.uid2offset (s.delUids di)) (-1) = -1
    · rw [if_pos hneg]
      obtain ⟨bm', he, hlen, hbits⟩ := ih bm hrest
      refine ⟨bm', he, hlen, ?_⟩
      intro o
      rw [hbits o]
      have hno : ¬resolveEntryF s qt ib di = (o : Int) := by
        unfold resolveEntryF; rw [hneg]; omega
      constructor
      · rintro ⟨hb, hne⟩
        refine ⟨hb, ?_⟩
        rintro ⟨d, hd, hr⟩
        rcases List.mem_cons.mp hd with rfl | hd'
        · exact hno hr
        · exact hne ⟨d, hd', hr⟩
      · rintro ⟨hb, hne⟩
        refine ⟨hb, ?_⟩
        rintro ⟨d, hd, hr⟩
        exact hne ⟨d, List.mem_cons_of_mem _ hd, hr⟩
    · rw [if_neg hneg]
      rcases resolveLoopF_cases s.timestamps qt ib (s.uid2offset (s.delUids di)) (-1) with h0 | ⟨od, hm, h1, h2, h3⟩
      · exact absurd h0 hneg
      · rw [h3, show ((od : Int)).toNat = od from Int.toNat_natCast od]
        obtain ⟨bm', he, hlen, hbits⟩ := ih (bm.set od false) hrest
        refine ⟨bm', he, by rw [hlen, List.length_set], ?_⟩
        intro o
        have hdieq : resolveEntryF s qt ib di = (o : Int) ↔ o = od := by
          unfold resolveEntryF
          rw [h3]
          constructor
          · intro hc; omega
          · intro hc; rw [hc]
        rw [hbits o, getD_set_false_iff]
        constructor
        · rintro ⟨⟨hb, hneod⟩, hne⟩
          refine ⟨hb, ?_⟩
          rintro ⟨d, hd, hr⟩
          rcases List.mem_cons.mp hd with rfl | hd'
          · exact hneod (hdieq.mp hr)
          · exact hne ⟨d, hd', hr⟩
        · rintro ⟨hb, hne⟩
          refine ⟨⟨hb, ?_⟩, ?_⟩
          · intro heq
            exact hne ⟨di, List.mem_cons_self di rest, hdieq.mpr heq⟩
          · rintro ⟨d, hd, hr⟩
            exact hne ⟨d, List.mem_cons_of_mem _ hd, hr⟩

theorem gdb_fast (s : DeleteView) (d qt ib : Nat) (force : Bool) (old : TmpBitmap)
    (hold : s.lru = old) (h : fastHit old d ib force = true) :
    get_deleted_bitmap s d qt ib force = some (old, old) := by
  simp only [get_deleted_bitmap]
  rw [hold, if_pos h]

theorem gdb_backward_eq (s : DeleteView) (d qt ib : Nat) (force : Bool) (old : TmpBitmap)
    (hold : s.lru = old) (h : fastHit old d ib force = false) (hlt : d < old.del_barrier) :
    get_deleted_bitmap s d qt ib force =
      match applyBackward s qt ib (List.range' d (old.del_barrier - d)) (cloneBitmap old.bitmap ib) with
      | none => none
      | some bm => some (⟨d, bm⟩, old) := by
  simp only [get_deleted_bitmap]
  rw [hold, if_neg (by simp [h]), if_pos hlt]

theorem gdb_forward_eq (s : DeleteView) (d qt ib : Nat) (force : Bool) (old : TmpBitmap)
    (hold : s.lru = old) (h : fastHit old d ib force = false) (hge : old.del_barrier ≤ d) :
    get_deleted_bitmap s d qt ib force =
      some (⟨d, applyForward s qt ib (List.range' old.del_barrier (d - old.del_barrier))
              (cloneBitmap old.bitmap ib)⟩,
            ⟨d, applyForward s qt ib (List.range' old.del_barrier (d - old.del_barrier))
              (cloneBitmap old.bitmap ib)⟩) := by
  simp only [get_deleted_bitmap]
  rw [hold, if_neg (by simp [h]), if_neg (by omega)]

theorem fastHit_of_barrier_eq (old : TmpBitmap) (d ib : Nat) (force : Bool)
    (hdb : old.del_barrier = d) (h : force = false ∨ old.bitmap.length = ib) :
    fastHit old d ib force = true := by
  unfold fastHit
  rcases h with rfl | hl
  · simp [hdb]
  · simp [hdb, hl]

theorem fastHit_false_of_barrier_ne (old : TmpBitmap) (d ib : Nat) (force : Bool)
    (hdb : old.del_barrier ≠ d) : fastHit old d ib force = false := by
  unfold fastHit
  have : (old.del_barrier == d) = false := by simp [hdb]
  rw [this, Bool.and_false]

/-- C10: whenever the most-recent cached entry's `del_barrier` equals the
requested `del_barrier` and either `force` is false or the cached bitmap's
bit count (capacity) equals `insert_barrier`, `get_deleted_bitmap` returns
the cached entry itself and leaves the cache unchanged; the conclusion holds
for every `qt`, so the result is independent of `query_timestamp`, and when
`force` is false nothing constrains the cached bitmap's length, so it may be
smaller than `insert_barrier` (see the witness). -/
theorem gdb_fast_path_hit (s : DeleteView) (d qt ib : Nat) (force : Bool)
    (hdb : s.lru.del_barrier = d) (h : force = false ∨ s.lru.bitmap.length = ib) :
    get_deleted_bitmap s d qt ib force = some (s.lru, s.lru) :=
  gdb_fast s d qt ib force s.lru rfl (fastHit_of_barrier_eq s.lru d ib force hdb h)

theorem gdb_fast_path_hit_witness :
    get_deleted_bitmap c10View 2 100 3 false = some (c10View.lru, c10View.lru) ∧
      c10View.lru.bitmap.length < 3 :=
  ⟨gdb_fast_path_hit c10View 2 100 3 false rfl (Or.inl rfl), by decide⟩

/-- C3: if `get_deleted_bitmap` returns `(r, c)` (result `r`, most-recent
cache entry `c` afterwards), then calling it again with identical arguments
and no intervening inserts or deletes returns the identical result and cache
entry; in particular the two returned bitmaps have identical set bits. -/
theorem gdb_idempotent (s : DeleteView) (d qt ib : Nat) (force : Bool) (r c : TmpBitmap)
    (h : get_deleted_bitmap s d qt ib force = some (r, c)) :
    get_deleted_bitmap { s with lru := c } d qt ib force = some (r, c) := by
  by_cases hf : fastHit s.lru d ib force = true
  · rw [gdb_fast s d qt ib force s.lru rfl hf] at h
    obtain ⟨rfl, rfl⟩ : r = s.lru ∧ c = s.lru := by
      have := h
      simp only [Option.some.injEq, Prod.mk.injEq] at this
      exact ⟨this.1.symm, this.2.symm⟩
    show get_deleted_bitmap s d qt ib force = some (s.lru, s.lru)
    exact gdb_fast s d qt ib force s.lru rfl hf
  · have hf' : fastHit s.lru d ib force = false := by
      cases hfe : fastHit s.lru d ib force
      · rfl
      · exact absurd hfe hf
    by_cases hlt : d < s.lru.del_barrier
    · rw [gdb_backward_eq s d qt ib force s.lru rfl hf' hlt] at h
      cases happ : applyBackward s qt ib (List.range' d (s.lru.del_barrier - d))
          (cloneBitmap s.lru.bitmap ib) with
      | none => rw [happ] at h; exact absurd h (by simp)
      | some bm =>
        rw [happ] at h
        obtain ⟨rfl, rfl⟩ : r = ⟨d, bm⟩ ∧ c = s.lru := by
          simp only [Option.some.injEq, Prod.mk.injEq] at h
          exact ⟨h.1.symm, h.2.symm⟩
        show get_deleted_bitmap s d qt ib force = some (⟨d, bm⟩, s.lru)
        rw [gdb_backward_eq s d qt ib force s.lru rfl hf' hlt, happ]
    · have hge : s.lru.del_barrier ≤ d := by omega
      rw [gdb_forward_eq s d qt ib force s.lru rfl hf' hge] at h
      obtain ⟨rfl, rfl⟩ : r = ⟨d, applyForward s qt ib
            (List.range' s.lru.del_barrier (d - s.lru.del_barrier))
            (cloneBitmap s.lru.bitmap ib)⟩ ∧ c = r := by
        simp only [Option.some.injEq, Prod.mk.injEq] at h
        exact ⟨h.1.symm, by rw [← h.1, ← h.2]⟩
      apply gdb_fast _ d qt ib force
      · rfl
      · apply fastHit_of_barrier_eq
        · rfl
        · right
          rw [applyForward_length, cloneBitmap_length]

theorem gdb_idempotent_witness :
    get_deleted_bitmap c3View 1 20 1 false = some (⟨1, [true]⟩, ⟨1, [true]⟩) ∧
      get_deleted_bitmap { c3View with lru := ⟨1, [true]⟩ } 1 20 1 false =
        some (⟨1, [true]⟩, ⟨1, [true]⟩) :=
  ⟨by decide, gdb_idempotent c3View 1 20 1 false ⟨1, [true]⟩ ⟨1, [true]⟩ (by decide)⟩

/-- C5: a `get_deleted_bitmap` call publishes its result as the new
most-recent LRU entry exactly when it takes the forward-reconciliation
branch (`del_barrier >= old.del_barrier` and no fast-path hit): on a
fast-path hit or on the backward branch the most-recent cache entry after
the call is still the old one, while on the forward branch it is the
returned bitmap itself. -/
theorem gdb_cache_publication (s : DeleteView) (d qt ib : Nat) (force : Bool) (r c : TmpBitmap)
    (h : get_deleted_bitmap s d qt ib force = some (r, c)) :
    (fastHit s.lru d ib force = true → c = s.lru) ∧
      (fastHit s.lru d ib force = false → d < s.lru.del_barrier → c = s.lru) ∧
      (fastHit s.lru d ib force = false → s.lru.del_barrier ≤ d → c = r) := by
  refine ⟨?_, ?_, ?_⟩
  · intro hf
    rw [gdb_fast s d qt ib force s.lru rfl hf] at h
    simp only [Option.some.injEq, Prod.mk.injEq] at h
    exact h.2.symm
  · intro hf hlt
    rw [gdb_backward_eq s d qt ib force s.lru rfl hf hlt] at h
    cases happ : applyBackward s qt ib (List.range' d (s.lru.del_barrier - d))
        (cloneBitmap s.lru.bitmap ib) with
    | none => rw [happ] at h; exact absurd h (by simp)
    | some bm =>
      rw [happ] at h
      simp only [Option.some.injEq, Prod.mk.injEq] at h
      exact h.2.symm
  · intro hf hge
    rw [gdb_forward_eq s d qt ib force s.lru rfl hf hge] at h
    simp only [Option.some.injEq, Prod.mk.injEq] at h
    rw [← h.1, ← h.2]

theorem gdb_cache_publication_witness :
    (fastHit c5View.lru 0 1 false = true → c5View.lru = c5View.lru) ∧
      (fastHit c5View.lru 0 1 false = false → 0 < c5View.lru.del_barrier →
        c5View.lru = c5View.lru) ∧
      (fastHit c5View.lru 0 1 false = false → c5View.lru.del_barrier ≤ 0 →
        c5View.lru = ⟨0, [false]⟩) :=
  gdb_cache_publication c5View 0 20 1 false ⟨0, [false]⟩ c5View.lru (by decide)

theorem resolveEntryF_state_irrel (s : DeleteView) (x : TmpBitmap) (qt ib di : Nat) :
    resolveEntryF { s with lru := x } qt ib di = resolveEntryF s qt ib di := rfl

theorem resolvesTo_state_irrel (s : DeleteView) (x : TmpBitmap) (qt ib : Nat) (u : Int) (o : Nat) :
    resolvesTo { s with lru := x } qt ib u o ↔ resolvesTo s qt ib u o := Iff.rfl

/-- C1: after any sequence of inserts and deletes (none of which touches the
bitmap cache, so the cache still holds the initial empty entry),
`GetDeletedBitmap(d, t, i, false)` returns a bitmap whose bit at offset `o`
is set iff some delete-log entry with index `< d` has a uid that resolves to
`o` under the largest-offset-with-`timestamps[o] < t`-and-`o < i` rule. -/
theorem gdb_snapshot_correct (s : DeleteView) (d qt ib : Nat)
    (hfresh : s.lru = initialEntry) :
    ∃ r c, get_deleted_bitmap s d qt ib false = some (r, c) ∧
      ∀ o : Nat, r.bitmap.getD o false = true ↔
        ∃ j, j < d ∧ resolvesTo s qt ib (s.delUids j) o := by
  by_cases hd : d = 0
  · subst hd
    refine ⟨s.lru, s.lru, gdb_fast s 0 qt ib false s.lru rfl ?_, ?_⟩
    · apply fastHit_of_barrier_eq
      · rw [hfresh]; rfl
      · exact Or.inl rfl
    · intro o
      rw [hfresh]
      simp [initialEntry]
  · have hf : fastHit s.lru d ib false = false := by
      apply fastHit_false_of_barrier_ne
      rw [hfresh]
      show (0 : Nat) ≠ d
      omega
    have hge : s.lru.del_barrier ≤ d := by rw [hfresh]; exact Nat.zero_le d
    refine ⟨_, _, gdb_forward_eq s d qt ib false s.lru rfl hf hge, ?_⟩
    intro o
    have hlen : (cloneBitmap s.lru.bitmap ib).length = ib := cloneBitmap_length ..
    rw [applyForward_getD s qt ib _ _ hlen o]
    have hclone0 : (cloneBitmap s.lru.bitmap ib).getD o false = false := by
      rw [cloneBitmap_getD, hfresh]
      simp [initialEntry]
    rw [hclone0, hfresh]
    show (false = true ∨ ∃ di ∈ List.range' 0 (d - 0), resolveEntryF s qt ib di = (o : Int)) ↔ _
    constructor
    · rintro (hfalse | ⟨di, hm, hr⟩)
      · exact absurd hfalse (by simp)
      · rw [List.mem_range'_1] at hm
        exact ⟨di, by omega, (resolveEntryF_eq_iff s qt ib di o).mp hr⟩
    · rintro ⟨j, hj, hres⟩
      right
      exact ⟨j, List.mem_range'_1.mpr (by omega),
        (resolveEntryF_eq_iff s qt ib j o).mpr hres⟩

theorem gdb_snapshot_correct_witness :
    ∃ r c, get_deleted_bitmap c1View 1 20 2 false = some (r, c) ∧
      ∀ o : Nat, r.bitmap.getD o false = true ↔
        ∃ j, j < 1 ∧ resolvesTo c1View 20 2 (c1View.delUids j) o :=
  gdb_snapshot_correct c1View 1 20 2 rfl

/-- C4 counterexample: in backward reconciliation a candidate offset that is
`>= insert_barrier` but satisfies the timestamp constraint is NOT silently
excluded — the call fails (models the `Assert(offset < insert_barrier)` on
the backward branch, line 72 of the source). -/
theorem gdb_backward_assert_counterexample :
    0 < c4View.lru.del_barrier ∧
      (3 ∈ c4View.uid2offset (c4View.delUids 0) ∧ c4View.timestamps 3 < 20 ∧ ¬(3 < 2)) ∧
      get_deleted_bitmap c4View 0 20 2 false = none := by decide

/-- When every timestamp-qualifying candidate of a uid lies below
`insert_barrier`, the forward resolution rule coincides with the
timestamp-only backward rule. -/
theorem resolvesTo_iff_B (s : DeleteView) (qt ib : Nat) (u : Int)
    (h : ∀ o' ∈ s.uid2offset u, s.timestamps o' < qt → o' < ib) (o : Nat) :
    resolvesTo s qt ib u o ↔ resolvesToB s qt u o := by
  unfold resolvesTo resolvesToB
  constructor
  · rintro ⟨hm, hts, _, hmax⟩
    exact ⟨hm, hts, fun o' hm' hts' => hmax o' hm' hts' (h o' hm' hts')⟩
  · rintro ⟨hm, hts, hmax⟩
    exact ⟨hm, hts, h o hm hts, fun o' hm' hts' _ => hmax o' hm' hts'⟩

/-- C4 amended: in backward reconciliation (`del_barrier < old.del_barrier`),
for every delete-log entry with index in `[del_barrier, old.del_barrier)`
only candidates satisfying the timestamp constraint are considered; each such
candidate must additionally satisfy `offset < insert_barrier` (enforced by an
assertion, not by exclusion — see the counterexample); provided that holds,
the bit of the largest qualifying offset is cleared, the entry is a no-op
when no candidate qualifies, and the cache is left unchanged. -/
theorem gdb_backward_rule (s : DeleteView) (d qt ib : Nat) (force : Bool)
    (hlt : d < s.lru.del_barrier)
    (hno : ∀ j, d ≤ j → j < s.lru.del_barrier →
      ∀ o ∈ s.uid2offset (s.delUids j), s.timestamps o < qt → o < ib) :
    ∃ r, get_deleted_bitmap s d qt ib force = some (r, s.lru) ∧
      ∀ o : Nat, r.bitmap.getD o false = true ↔
        ((cloneBitmap s.lru.bitmap ib).getD o false = true ∧
          ¬∃ j, d ≤ j ∧ j < s.lru.del_barrier ∧ resolvesToB s qt (s.delUids j) o) := by
  have hf : fastHit s.lru d ib force = false :=
    fastHit_false_of_barrier_ne s.lru d ib force (by omega)
  have hmem : ∀ j ∈ List.range' d (s.lru.del_barrier - d),
      (d ≤ j ∧ j < s.lru.del_barrier) := by
    intro j hj
    rw [List.mem_range'_1] at hj
    omega
  obtain ⟨bm', happ, _, hbits⟩ :=
    applyBackward_some s qt ib (List.range' d (s.lru.del_barrier - d))
      (cloneBitmap s.lru.bitmap ib)
      (by
        intro di hdi o ho hts
        obtain ⟨h1, h2⟩ := hmem di hdi
        exact hno di h1 h2 o ho hts)
  refine ⟨⟨d, bm'⟩, ?_, ?_⟩
  · rw [gdb_backward_eq s d qt ib force s.lru rfl hf hlt, happ]
  · intro o
    rw [hbits o]
    constructor
    · rintro ⟨hb, hne⟩
      refine ⟨hb, ?_⟩
      rintro ⟨j, h1, h2, hres⟩
      refine hne ⟨j, List.mem_range'_1.mpr (by omega), ?_⟩
      rw [resolveEntryF_eq_iff]
      rw [resolvesTo_iff_B s qt ib (s.delUids j) (hno j h1 h2) o]
      exact hres
    · rintro ⟨hb, hne⟩
      refine ⟨hb, ?_⟩
      rintro ⟨j, hj, hres⟩
      obtain ⟨h1, h2⟩ := hmem j hj
      rw [resolveEntryF_eq_iff] at hres
      rw [resolvesTo_iff_B s qt ib (s.delUids j) (hno j h1 h2) o] at hres
      exact hne ⟨j, h1, h2, hres⟩

theorem gdb_backward_rule_witness :
    ∃ r, get_deleted_bitmap c4WView 0 20 1 false = some (r, c4WView.lru) ∧
      ∀ o : Nat, r.bitmap.getD o false = true ↔
        ((cloneBitmap c4WView.lru.bitmap 1).getD o false = true ∧
          ¬∃ j, 0 ≤ j ∧ j < c4WView.lru.del_barrier ∧
            resolvesToB c4WView 20 (c4WView.delUids j) o) :=
  gdb_backward_rule c4WView 0 20 1 false (by decide)
    (by
      intro j h1 h2 o ho hts
      have : o ∈ [0] := by simpa [c4WView] using ho
      simp at this
      omega)

/-- C2 counterexample: with `d1 = 1`, `d2 = 2`, `query_timestamp = 20`,
`insert_barrier = 1`, the bitmap originally computed at barrier 1 (from the
initial cache entry) is `[true]`; starting from it, forward reconciliation to
barrier 2 then backward reconciliation to barrier 1 returns `[false]`, whose
set bits differ from the original at offset 0. -/
theorem gdb_round_trip_counterexample :
    get_deleted_bitmap { c2View with lru := initialEntry } 1 20 1 false =
        some (⟨1, [true]⟩, ⟨1, [true]⟩) ∧
      get_deleted_bitmap c2View 2 20 1 false = some (⟨2, [true]⟩, ⟨2, [true]⟩) ∧
      get_deleted_bitmap { c2View with lru := ⟨2, [true]⟩ } 1 20 1 false =
        some (⟨1, [false]⟩, ⟨2, [true]⟩) ∧
      (⟨1, [false]⟩ : TmpBitmap).bitmap.getD 0 false ≠ c2View.lru.bitmap.getD 0 false := by
  decide

/-- C2 amended: the round trip holds under the two conditions the
counterexamples force: (a) every timestamp-qualifying candidate of the
entries in `[d1, d2)` lies below `insert_barrier` (otherwise the backward
pass hits the assertion refuted in C4), and (b) no entry in `[d1, d2)`
resolves to an offset already set in the barrier-`d1` bitmap (otherwise the
backward pass clears a bit the `d1` bitmap owned, as in the C2
counterexample).  The cached bitmap at `d1` must also span `insert_barrier`
rows, as a bitmap computed at the same `insert_barrier` does. -/
theorem gdb_round_trip (s : DeleteView) (d1 d2 qt ib : Nat)
    (hdb : s.lru.del_barrier = d1)
    (hlen : s.lru.bitmap.length = ib)
    (hle : d1 ≤ d2)
    (hcand : ∀ j, d1 ≤ j → j < d2 →
      ∀ o ∈ s.uid2offset (s.delUids j), s.timestamps o < qt → o < ib)
    (hfresh : ∀ j, d1 ≤ j → j < d2 →
      ∀ o : Nat, resolvesTo s qt ib (s.delUids j) o → s.lru.bitmap.getD o false = false) :
    ∃ r2 c2 r3 c3, get_deleted_bitmap s d2 qt ib false = some (r2, c2) ∧
      get_deleted_bitmap { s with lru := c2 } d1 qt ib false = some (r3, c3) ∧
      ∀ o : Nat, r3.bitmap.getD o false = s.lru.bitmap.getD o false := by
  rcases Nat.eq_or_lt_of_le hle with heq | hlt
  · subst heq
    have hfast : fastHit s.lru d1 ib false = true :=
      fastHit_of_barrier_eq s.lru d1 ib false hdb (Or.inl rfl)
    refine ⟨s.lru, s.lru, s.lru, s.lru, gdb_fast s d1 qt ib false s.lru rfl hfast, ?_,
      fun o => rfl⟩
    show get_deleted_bitmap s d1 qt ib false = some (s.lru, s.lru)
    exact gdb_fast s d1 qt ib false s.lru rfl hfast
  · have hf1 : fastHit s.lru d2 ib false = false :=
      fastHit_false_of_barrier_ne s.lru d2 ib false (by omega)
    have hclone1 : cloneBitmap s.lru.bitmap ib = s.lru.bitmap := by
      rw [← hlen, cloneBitmap_self]
    have hfwd := gdb_forward_eq s d2 qt ib false s.lru rfl hf1 (by omega)
    rw [hclone1, hdb] at hfwd
    set bmF := applyForward s qt ib (List.range' d1 (d2 - d1)) s.lru.bitmap with hbmF
    have hlenF : bmF.length = ib := by
      rw [hbmF, applyForward_length]
      exact hlen
    set s' : DeleteView := { s with lru := ⟨d2, bmF⟩ } with hs'
    have hf2 : fastHit (⟨d2, bmF⟩ : TmpBitmap) d1 ib false = false :=
      fastHit_false_of_barrier_ne _ d1 ib false (by show d2 ≠ d1; omega)
    have hcloneF : cloneBitmap bmF ib = bmF := by
      rw [← hlenF, cloneBitmap_self]
    have hbwd := gdb_backward_eq s' d1 qt ib false ⟨d2, bmF⟩ rfl hf2 (by show d1 < d2; omega)
    rw [show ((⟨d2, bmF⟩ : TmpBitmap).del_barrier) = d2 from rfl,
      show ((⟨d2, bmF⟩ : TmpBitmap).bitmap) = bmF from rfl, hcloneF] at hbwd
    obtain ⟨bm', happ, hlen', hbits⟩ :=
      applyBackward_some s' qt ib (List.range' d1 (d2 - d1)) bmF
        (by
          intro di hdi o ho hts
          rw [List.mem_range'_1] at hdi
          exact hcand di (by omega) (by omega) o ho hts)
    rw [happ] at hbwd
    refine ⟨⟨d2, bmF⟩, ⟨d2, bmF⟩, ⟨d1, bm'⟩, ⟨d2, bmF⟩, hfwd, hbwd, ?_⟩
    intro o
    have hFbits := applyForward_getD s qt ib (List.range' d1 (d2 - d1)) s.lru.bitmap hlen o
    rw [← hbmF] at hFbits
    have hres_irrel : ∀ di, resolveEntryF s' qt ib di = resolveEntryF s qt ib di :=
      fun di => rfl
    rw [Bool.eq_iff_iff]
    rw [hbits o]
    constructor
    · rintro ⟨hbF, hne⟩
      rcases hFbits.mp hbF with hb | ⟨di, hm, hr⟩
      · exact hb
      · exfalso
        exact hne ⟨di, hm, by rw [hres_irrel di]; exact hr⟩
    · intro hb
      have hnores : ¬∃ di ∈ List.range' d1 (d2 - d1), resolveEntryF s' qt ib di = (o : Int) := by
        rintro ⟨di, hm, hr⟩
        rw [hres_irrel di, resolveEntryF_eq_iff] at hr
        rw [List.mem_range'_1] at hm
        have := hfresh di (by omega) (by omega) o hr
        rw [hb] at this
        exact absurd this (by simp)
      exact ⟨hFbits.mpr (Or.inl hb), hnores⟩

theorem gdb_round_trip_witness :
    ∃ r2 c2 r3 c3, get_deleted_bitmap c2WView 2 20 2 false = some (r2, c2) ∧
      get_deleted_bitmap { c2WView with lru := c2 } 1 20 2 false = some (r3, c3) ∧
      ∀ o : Nat, r3.bitmap.getD o false = c2WView.lru.bitmap.getD o false :=
  gdb_round_trip c2WView 1 2 20 2 rfl rfl (by omega)
    (by
      intro j h1 h2 o ho hts
      have hj : j = 1 := by omega
      subst hj
      have : o ∈ [1] := by simpa [c2WView] using ho
      simp at this
      omega)
    (by
      intro j h1 h2 o hres
      have hj : j = 1 := by omega
      subst hj
      obtain ⟨hm, _, _, _⟩ := hres
      have : o ∈ [1] := by simpa [c2WView] using hm
      simp at this
      subst this
      decide)

theorem setData_get {α : Type} (col : Nat → Option α) (b : Nat) (xs : List α) (i : Nat)
    (h : i < xs.length) : setData col b xs (b + i) = xs[i]? := by
  unfold setData
  rw [if_pos ⟨by omega, by omega⟩]
  congr 1
  omega

theorem getD_map_range {α : Type} (n k : Nat) (f : Nat → α) (d : α) (h : k < n) :
    ((List.range n).map f).getD k d = f k := by
  rw [List.getD_eq_getElem?_getD, List.getElem?_map, List.getElem?_range h]
  rfl

theorem insertOrdering_length (size : Nat) (u : Nat → Int) (t : Nat → Nat) :
    (insertOrdering size u t).length = size := by
  unfold insertOrdering
  rw [List.length_insertionSort, List.length_map, List.length_range]

theorem pos_lt_of_not_mem_right {α : Type} (L1 L2 : List α) (k : Nat) (e : α)
    (h : (L1 ++ L2)[k]? = some e) (hnm : e ∉ L2) : k < L1.length := by
  by_contra hk
  push_neg at hk
  rw [List.getElem?_append_right hk] at h
  exact hnm (List.getElem?_mem h)

theorem pos_ge_of_not_mem_left {α : Type} (L1 L2 : List α) (k : Nat) (e : α)
    (h : (L1 ++ L2)[k]? = some e) (hnm : e ∉ L1) : L1.length ≤ k := by
  by_contra hk
  push_neg at hk
  rw [List.getElem?_append_left hk] at h
  exact hnm (List.getElem?_mem h)

/-- C6: a successful `Insert` stores the batch sorted by `(timestamp, uid)`:
the sorted triples are a permutation of the input rows and their
`(timestamp, uid)` projection is non-decreasing; the timestamps column, the
uids column and every per-field column at offsets
`reserved_begin .. reserved_begin+size-1` all follow that same sorted order
(each field value is the corresponding byte slice of the original row picked
by the triple's index); the Uid Index gains exactly the pairs
`(sorted_uid[i], reserved_begin + i)`; and in the event trace every Uid
Index insertion comes strictly after every timestamp/uid/field data write. -/
theorem Insert_correct (schema_ : Schema) (st : InsertState) (rb size : Nat)
    (uids_raw : Nat → Int) (timestamps_raw : Nat → Nat) (er : RowBasedRawData)
    (st' : InsertState) (tr : List WriteEvent)
    (h : Insert schema_ st rb size uids_raw timestamps_raw er = .ok (st', tr)) :
    List.Perm (insertOrdering size uids_raw timestamps_raw)
        ((List.range size).map (fun i => (timestamps_raw i, uids_raw i, i))) ∧
    ((insertOrdering size uids_raw timestamps_raw).map (fun x => (x.1, x.2.1))).Sorted pairLe ∧
    (∀ i, i < size →
      st'.timestamps_ (rb + i) =
          ((insertOrdering size uids_raw timestamps_raw).map (fun x => x.1))[i]? ∧
        st'.uids_ (rb + i) =
          ((insertOrdering size uids_raw timestamps_raw).map (fun x => x.2.1))[i]? ∧
        ∀ fid, fid < schema_.numFields →
          st'.entities_ fid (rb + i) =
            ((insertOrdering size uids_raw timestamps_raw).map (fun x =>
              slice er.raw_data (x.2.2 * er.sizeof_per_row + schema_.offsetInfos fid)
                (schema_.sizeof_infos.getD fid 0)))[i]?) ∧
    (st'.uid2offset_ = st.uid2offset_ ++ (List.range size).map (fun i =>
      (((insertOrdering size uids_raw timestamps_raw).map (fun x => x.2.1)).getD i 0,
        rb + i))) ∧
    (∀ (k1 k2 : Nat) (e1 e2 : WriteEvent), tr[k1]? = some e1 → tr[k2]? = some e2 →
      e1.isDataWrite = true → e2.isUidIndexInsert = true → k1 < k2) := by
  by_cases hc : er.count ≠ size
  · rw [Insert, if_pos hc] at h
    exact absurd h (by simp)
  by_cases hs : er.sizeof_per_row ≠ schema_.get_total_sizeof
  · rw [Insert, if_neg hc, if_pos hs] at h
    exact absurd h (by simp)
  rw [Insert, if_neg hc, if_neg hs] at h
  simp only [Except.ok.injEq, Prod.mk.injEq] at h
  obtain ⟨hst, htr⟩ := h
  subst hst
  subst htr
  have hlen : (insertOrdering size uids_raw timestamps_raw).length = size :=
    insertOrdering_length size uids_raw timestamps_raw
  refine ⟨?_, ?_, ?_, rfl, ?_⟩
  · exact List.perm_insertionSort tripleLe _
  · have hmono : ∀ a b : Nat × Int × Nat, tripleLe a b →
        pairLe (a.1, a.2.1) (b.1, b.2.1) := by
      intro a b hab
      unfold tripleLe at hab
      show a.1 < b.1 ∨ (a.1 = b.1 ∧ a.2.1 ≤ b.2.1)
      omega
    exact List.Pairwise.map _ hmono (List.sorted_insertionSort tripleLe _)
  · intro i hi
    refine ⟨?_, ?_, ?_⟩
    · exact setData_get st.timestamps_ rb _ i (by rw [List.length_map]; omega)
    · exact setData_get st.uids_ rb _ i (by rw [List.length_map]; omega)
    · intro fid hfid
      show (if fid < schema_.numFields then _ else st.entities_ fid) (rb + i) = _
      rw [if_pos hfid]
      rw [getD_map_range schema_.numFields fid _ [] hfid]
      exact setData_get (st.entities_ fid) rb _ i (by rw [List.length_map]; omega)
  · intro k1 k2 e1 e2 h1 h2 hd hu
    simp only [List.append_assoc] at h1 h2
    have hFlen : ((List.range schema_.numFields).map (fun fid =>
        WriteEvent.setFieldData fid rb size)).length = schema_.numFields := by
      rw [List.length_map, List.length_range]
    have hk1 : k1 < 2 + schema_.numFields := by
      by_cases hk1a : k1 < 2
      · omega
      · push_neg at hk1a
        have h1' := h1
        rw [List.getElem?_append_right (by simpa using hk1a)] at h1'
        have := pos_lt_of_not_mem_right _ _ _ _ h1' (by
          intro hm
          rcases List.mem_append.mp hm with hm' | hm'
          · obtain ⟨j, _, hj⟩ := List.mem_map.mp hm'
            rw [← hj] at hd
            simp [WriteEvent.isDataWrite] at hd
          · simp only [List.mem_singleton] at hm'
            rw [hm'] at hd
            simp [WriteEvent.isDataWrite] at hd)
        rw [hFlen] at this
        simp only [List.length_cons, List.length_nil] at this
        omega
    have hk2 : 2 + schema_.numFields ≤ k2 := by
      have hk2a : 2 ≤ k2 := by
        have := pos_ge_of_not_mem_left
          [WriteEvent.setTimestampData rb size, WriteEvent.setUidData rb size] _ k2 e2 h2 (by
            intro hm
            simp only [List.mem_cons, List.not_mem_nil, or_false, List.mem_singleton] at hm
            rcases hm with rfl | rfl
            · simp [WriteEvent.isUidIndexInsert] at hu
            · simp [WriteEvent.isUidIndexInsert] at hu)
        simpa using this
      have h2' := h2
      rw [List.getElem?_append_right (by simpa using hk2a)] at h2'
      have := pos_ge_of_not_mem_left _ _ _ _ h2' (by
        intro hm
        obtain ⟨j, _, hj⟩ := List.mem_map.mp hm
        rw [← hj] at hu
        simp [WriteEvent.isUidIndexInsert] at hu)
      rw [hFlen] at this
      simp only [List.length_cons, List.length_nil] at this
      omega
    omega

theorem Insert_correct_witness :
    ∃ st' tr, Insert c6Schema c6State 0 2 c6Uids c6Ts c6Rows = Except.ok (st', tr) ∧
      List.Perm (insertOrdering 2 c6Uids c6Ts)
        ((List.range 2).map (fun i => (c6Ts i, c6Uids i, i))) ∧
      st'.timestamps_ (0 + 0) = ((insertOrdering 2 c6Uids c6Ts).map (fun x => x.1))[0]? := by
  refine ⟨_, _, rfl, ?_, ?_⟩
  · exact (Insert_correct c6Schema c6State 0 2 c6Uids c6Ts c6Rows _ _ rfl).1
  · exact ((Insert_correct c6Schema c6State 0 2 c6Uids c6Ts c6Rows _ _ rfl).2.2.1 0
      (by omega)).1

/-- C7: with the argument-count assertion satisfied, `Insert` fails exactly
when the per-row byte length of the row-major input differs from the
schema's total row size, and the failure is the schema-mismatch error
carrying those two lengths.  The failure is returned synchronously before
the model constructs any successor state, mirroring that the source throws
at lines 124-127 before any column write or Uid Index insertion. -/
theorem Insert_schema_mismatch (schema_ : Schema) (st : InsertState) (rb size : Nat)
    (u : Nat → Int) (t : Nat → Nat) (er : RowBasedRawData)
    (hcount : er.count = size) :
    ((∃ e, Insert schema_ st rb size u t er = .error e) ↔
        er.sizeof_per_row ≠ schema_.get_total_sizeof) ∧
      ∀ e, Insert schema_ st rb size u t er = .error e →
        e = .schemaMismatch er.sizeof_per_row schema_.get_total_sizeof := by
  rw [Insert, if_neg (by omega)]
  by_cases hm : er.sizeof_per_row ≠ schema_.get_total_sizeof
  · rw [if_pos hm]
    refine ⟨⟨fun _ => hm, fun _ => ⟨_, rfl⟩⟩, ?_⟩
    intro e he
    simp only [Except.error.injEq] at he
    exact he.symm
  · rw [if_neg hm]
    refine ⟨⟨?_, fun hc => absurd hc hm⟩, ?_⟩
    · rintro ⟨e, he⟩
      exact absurd he (by simp)
    · intro e he
      exact absurd he (by simp)

theorem Insert_schema_mismatch_witness :
    ((∃ e, Insert c6Schema c6State 0 1 c6Uids c6Ts c7Rows = .error e) ↔
        (2 : Nat) ≠ 3) ∧
      ∀ e, Insert c6Schema c6State 0 1 c6Uids c6Ts c7Rows = .error e →
        e = .schemaMismatch 2 3 :=
  Insert_schema_mismatch c6Schema c6State 0 1 c6Uids c6Ts c7Rows rfl

/-- C8: `Close` succeeds — returning OK with the segment state moved to
`Closed` — iff the Insert Record's reservation counter equals its
acknowledgment frontier and the Deleted Record's reservation counter equals
its acknowledgment frontier; otherwise it is the fatal failure `none`. -/
theorem Close_ok_iff (s : SegmentMeta) :
    ((∃ s', Close s = some s' ∧ s'.state_ = SegmentSt.Closed) ↔
        (s.insert_reserved = s.insert_ack ∧ s.delete_reserved = s.delete_ack)) ∧
      (Close s = none ↔
        ¬(s.insert_reserved = s.insert_ack ∧ s.delete_reserved = s.delete_ack)) := by
  unfold Close
  by_cases h1 : s.insert_reserved ≠ s.insert_ack
  · rw [if_pos h1]
    constructor
    · constructor
      · rintro ⟨s', hs', _⟩
        exact absurd hs' (by simp)
      · rintro ⟨ha, _⟩
        exact absurd ha h1
    · constructor
      · rintro _ ⟨ha, _⟩
        exact absurd ha h1
      · intro _
        rfl
  · rw [if_neg h1]
    push_neg at h1
    by_cases h2 : s.delete_reserved ≠ s.delete_ack
    · rw [if_pos h2]
      constructor
      · constructor
        · rintro ⟨s', hs', _⟩
          exact absurd hs' (by simp)
        · rintro ⟨_, ha⟩
          exact absurd ha h2
      · constructor
        · rintro _ ⟨_, ha⟩
          exact absurd ha h2
        · intro _
          rfl
    · rw [if_neg h2]
      push_neg at h2
      constructor
      · constructor
        · intro _
          exact ⟨h1, h2⟩
        · intro _
          exact ⟨{ s with state_ := SegmentSt.Closed }, rfl, rfl⟩
      · constructor
        · intro hn
          exact absurd hn (by simp)
        · intro hn
          exact absurd ⟨h1, h2⟩ hn

theorem reserveRanges_length : ∀ (l : List Nat) (r : Nat),
    (reserveRanges r l).length = l.length := by
  intro l
  induction l with
  | nil => intro r; rfl
  | cons a l ih => intro r; simp [reserveRanges, ih]

theorem runReservations_eq : ∀ (l : List Nat) (r : Nat),
    runReservations r l = r + l.sum := by
  intro l
  induction l with
  | nil => intro r; simp [runReservations]
  | cons a l ih =>
    intro r
    show runReservations (r + a) l = _
    rw [ih, List.sum_cons]
    omega

theorem sum_take_succ_getD : ∀ (l : List Nat) (i : Nat), i < l.length →
    (l.take (i + 1)).sum = (l.take i).sum + l.getD i 0 := by
  intro l
  induction l with
  | nil => intro i hi; simp at hi
  | cons a l ih =>
    intro i hi
    cases i with
    | zero => simp
    | succ i =>
      rw [List.take_succ_cons, List.take_succ_cons, List.sum_cons, List.sum_cons,
        List.getD_cons_succ, ih i (by simpa using hi)]
      omega

theorem sum_take_mono : ∀ (l : List Nat) {i j : Nat}, i ≤ j →
    (l.take i).sum ≤ (l.take j).sum := by
  intro l
  induction l with
  | nil => intro i j _; simp
  | cons a l ih =>
    intro i j hij
    cases i with
    | zero => exact Nat.zero_le _
    | succ i =>
      cases j with
      | zero => omega
      | succ j =>
        rw [List.take_succ_cons, List.take_succ_cons, List.sum_cons, List.sum_cons]
        have := ih (show i ≤ j by omega)
        omega

theorem reserveRanges_getD : ∀ (l : List Nat) (r k : Nat), k < l.length →
    rangeAt (reserveRanges r l) k = (r + (l.take k).sum, l.getD k 0) := by
  intro l
  induction l with
  | nil => intro r k hk; simp at hk
  | cons a l ih =>
    intro r k hk
    cases k with
    | zero => simp [rangeAt, reserveRanges, PreInsert]
    | succ k =>
      have hk' : k < l.length := by simpa using hk
      unfold rangeAt reserveRanges
      rw [List.getD_cons_succ]
      have hih := ih (PreInsert r a).2 k hk'
      unfold rangeAt at hih
      rw [hih]
      show ((r + a) + (l.take k).sum, l.getD k 0) = _
      rw [List.take_succ_cons, List.sum_cons, List.getD_cons_succ]
      simp only [Prod.mk.injEq]
      exact ⟨by omega, trivial⟩

theorem exists_cover : ∀ (l : List Nat) (x : Nat), x < l.sum →
    ∃ k, k < l.length ∧ (l.take k).sum ≤ x ∧ x < (l.take k).sum + l.getD k 0 := by
  intro l
  induction l with
  | nil => intro x hx; simp at hx
  | cons a l ih =>
    intro x hx
    by_cases hxa : x < a
    · exact ⟨0, by simp, by simp, by simpa using hxa⟩
    · push_neg at hxa
      have hx' : x - a < l.sum := by
        rw [List.sum_cons] at hx
        omega
      obtain ⟨k, hk, h1, h2⟩ := ih (x - a) hx'
      refine ⟨k + 1, by simpa using hk, ?_, ?_⟩
      · rw [List.take_succ_cons, List.sum_cons]
        omega
      · rw [List.take_succ_cons, List.sum_cons, List.getD_cons_succ]
        omega

/-- C9: for every finite sequence of reservation calls against one record's
counter (the identical `fetch_add` code serves `PreInsert` and `PreDelete`,
each on its own record, so this covers both), the returned
`[begin, begin+n)` ranges are pairwise disjoint, and their union is exactly
`[0, total_reserved)` where `total_reserved` is the record's final
reservation counter. -/
theorem reservation_ranges_partition (sizes : List Nat) :
    (∀ i j, i < (reserveRanges 0 sizes).length → j < (reserveRanges 0 sizes).length →
      i ≠ j → ∀ x, ¬(inRange (rangeAt (reserveRanges 0 sizes) i) x ∧
        inRange (rangeAt (reserveRanges 0 sizes) j) x)) ∧
    (∀ x, x < runReservations 0 sizes ↔
      ∃ k, k < (reserveRanges 0 sizes).length ∧
        inRange (rangeAt (reserveRanges 0 sizes) k) x) := by
  have hlen : (reserveRanges 0 sizes).length = sizes.length := reserveRanges_length sizes 0
  constructor
  · have aux : ∀ i j, i < j → j < sizes.length → ∀ x,
        ¬(inRange (rangeAt (reserveRanges 0 sizes) i) x ∧
          inRange (rangeAt (reserveRanges 0 sizes) j) x) := by
      intro i j hij hj x hcontra
      obtain ⟨h1, h2⟩ := hcontra
      rw [reserveRanges_getD sizes 0 i (by omega)] at h1
      rw [reserveRanges_getD sizes 0 j (by omega)] at h2
      unfold inRange at h1 h2
      dsimp only at h1 h2
      have hsucc : (sizes.take (i + 1)).sum = (sizes.take i).sum + sizes.getD i 0 :=
        sum_take_succ_getD sizes i (by omega)
      have hmono : (sizes.take (i + 1)).sum ≤ (sizes.take j).sum :=
        sum_take_mono sizes (by omega)
      omega
    intro i j hi hj hne x
    rcases Nat.lt_or_ge i j with hij | hij
    · exact aux i j hij (by omega) x
    · have hji : j < i := by omega
      intro hcontra
      exact aux j i hji (by omega) x ⟨hcontra.2, hcontra.1⟩
  · intro x
    rw [runReservations_eq]
    constructor
    · intro hx
      obtain ⟨k, hk, hle, hlt⟩ := exists_cover sizes x (by omega)
      refine ⟨k, by omega, ?_⟩
      rw [reserveRanges_getD sizes 0 k hk]
      unfold inRange
      dsimp only
      constructor
      · omega
      · omega
    · rintro ⟨k, hk, hin⟩
      rw [reserveRanges_getD sizes 0 k (by omega)] at hin
      unfold inRange at hin
      dsimp only at hin
      have hsucc := sum_take_succ_getD sizes k (by omega)
      have hmono := sum_take_mono sizes (show k + 1 ≤ sizes.length by omega)
      have htake : sizes.take sizes.length = sizes := List.take_length sizes
      rw [htake] at hmono
      omega

theorem reservation_ranges_partition_witness :
    (¬(inRange (rangeAt (reserveRanges 0 [2, 0, 3]) 0) 1 ∧
        inRange (rangeAt (reserveRanges 0 [2, 0, 3]) 2) 1)) ∧
      (4 < runReservations 0 [2, 0, 3] ↔
        ∃ k, k < (reserveRanges 0 [2, 0, 3]).length ∧
          inRange (rangeAt (reserveRanges 0 [2, 0, 3]) k) 4) :=
  ⟨(reservation_ranges_partition [2, 0, 3]).1 0 2 (by decide) (by decide) (by decide) 1,
    (reservation_ranges_partition [2, 0, 3]).2 4⟩

end Segcore
